import Mathlib

/-!
Shallow embedding of the ribbit journal CLI (src/src/lib.rs): the data
model (dates, habit flags, frontmatter records, tallies), the time and
habit filters, the 7-entry tally fold, the toggle-based frontmatter
extraction, the recursive directory walk, and the pure core of `run`.
Filesystem reads are modelled by an explicit tree; the current date
(`Local::now().date_naive()`) is passed as an explicit `today` argument;
the YAML decoder (`serde_yaml::from_str`, an external dependency) is a
parameter of `parse_frontmatter`.
-/

/-- Calendar date in the proleptic Gregorian calendar, as chrono's
`NaiveDate` (year, month 1-12, day 1-31). -/
structure Date where
  year : Int
  month : Nat
  day : Nat
deriving DecidableEq, Repr

/-- Chronological order on dates, as chrono's `Ord for NaiveDate`:
lexicographic on (year, month, day) for in-range dates. -/
def dateLe (a b : Date) : Bool :=
  decide (a.year < b.year) ||
    (decide (a.year = b.year) &&
      (decide (a.month < b.month) ||
        (decide (a.month = b.month) && decide (a.day ≤ b.day))))

/-- The `Habit` record of lib.rs: three independent boolean flags. -/
structure Habit where
  exercise : Bool
  contrib : Bool
  reading : Bool
deriving DecidableEq, Repr

/-- The `Fm` frontmatter record of lib.rs: title, date, habit flags. -/
structure Fm where
  title : String
  date : Date
  habits : Habit
deriving DecidableEq, Repr

/-- The `HabitCount` tally of lib.rs: three counters, field order as in
the source (exercise, reading, contrib). -/
structure HabitCount where
  exercise : Nat
  reading : Nat
  contrib : Nat
deriving DecidableEq, Repr

/-- `HabitCount::default()`: all counters zero. -/
def HabitCount.default : HabitCount :=
  { exercise := 0, reading := 0, contrib := 0 }

/-- `impl Add<Habit> for HabitCount` of lib.rs: each true flag increments
its counter by one. -/
def HabitCount.add (hc : HabitCount) (h : Habit) : HabitCount :=
  { exercise := if h.exercise then hc.exercise + 1 else hc.exercise
    contrib := if h.contrib then hc.contrib + 1 else hc.contrib
    reading := if h.reading then hc.reading + 1 else hc.reading }

/-- The `HabitFilter` CLI enum of lib.rs. -/
inductive HabitFilter where
  | exercise
  | contrib
  | reading
deriving DecidableEq, Repr

/-- The `TimeFilter` CLI enum of lib.rs. -/
inductive TimeFilter where
  | week
  | month
  | day
  | year
deriving DecidableEq, Repr

/-- Proleptic Gregorian leap-year test, as chrono. -/
def isLeap (y : Int) : Bool :=
  (decide (y % 4 = 0) && !(decide (y % 100 = 0))) || decide (y % 400 = 0)

/-- Days in the months strictly before month `m` of a common year
(index 0 unused). -/
def cumDays (m : Nat) : Nat :=
  [0, 0, 31, 59, 90, 120, 151, 181, 212, 243, 273, 304, 334].getD m 0

/-- Day-of-year (1-based ordinal) of a date, as chrono's `ordinal`. -/
def ordinalOf (d : Date) : Nat :=
  cumDays d.month + (if isLeap d.year && decide (2 < d.month) then 1 else 0) + d.day

/-- Weekday of January 1st of year `y`, 0 = Sunday, by Gauss's formula;
valid proleptically since the Gregorian cycle of 146097 days is a
multiple of 7. -/
def jan1wd (y : Int) : Int :=
  (1 + 5 * ((y - 1) % 4) + 4 * ((y - 1) % 100) + 6 * ((y - 1) % 400)) % 7

/-- ISO weekday of a date: 1 = Monday .. 7 = Sunday. -/
def isoWeekday (d : Date) : Int :=
  let w := (jan1wd d.year + (ordinalOf d : Int) - 1) % 7
  if w = 0 then 7 else w

/-- Number of ISO weeks in year `y` (52 or 53): 53 exactly when January
1st falls on Thursday, or on Wednesday in a leap year. -/
def nIsoWeeks (y : Int) : Nat :=
  if jan1wd y = 4 ∨ (isLeap y = true ∧ jan1wd y = 3) then 53 else 52

/-- ISO 8601 week date of a date, as chrono's `NaiveDate::iso_week()`:
the pair (ISO week-year, ISO week number). chrono's `IsoWeek` equality
compares both components. -/
def isoWeek (d : Date) : Int × Int :=
  let w : Int := ((ordinalOf d : Int) - isoWeekday d + 10) / 7
  if w < 1 then (d.year - 1, (nIsoWeeks (d.year - 1) : Int))
  else if (nIsoWeeks d.year : Int) < w then (d.year + 1, 1)
  else (d.year, w)

/-- The match arms of `filter_by_time` in lib.rs: Day compares full
dates, Week compares `iso_week()` values, Month compares `month()`
numbers only, Year compares `year()` numbers only. -/
def tfPred (today : Date) (filter : TimeFilter) (d : Date) : Bool :=
  match filter with
  | TimeFilter.day => decide (d = today)
  | TimeFilter.week => decide (isoWeek d = isoWeek today)
  | TimeFilter.month => decide (d.month = today.month)
  | TimeFilter.year => decide (d.year = today.year)

/-- `filter_by_time` of lib.rs, with `today` made an explicit argument. -/
def filter_by_time (fm : List Fm) (filter : TimeFilter) (today : Date) : List Fm :=
  fm.filter (fun f => tfPred today filter f.date)

/-- Fold of an entire entry list into a tally (no cap); used to state
properties of `count`. -/
def tallyAll (fm : List Fm) : HabitCount :=
  fm.foldl (fun c f => c.add f.habits) HabitCount.default

/-- `count` of lib.rs: fold the first 7 entries into a tally. -/
def count (fm : List Fm) : HabitCount :=
  (fm.take 7).foldl (fun c f => c.add f.habits) HabitCount.default

/-- The match arms of `count_filtered_habit` in lib.rs: the flag of the
selected habit. -/
def habitPred (filter : HabitFilter) (f : Fm) : Bool :=
  match filter with
  | HabitFilter.exercise => f.habits.exercise
  | HabitFilter.contrib => f.habits.contrib
  | HabitFilter.reading => f.habits.reading

/-- `count_filtered_habit` of lib.rs: keep entries whose selected habit
flag is true, then `count`. -/
def count_filtered_habit (fm : List Fm) (filter : HabitFilter) : HabitCount :=
  count (fm.filter (habitPred filter))

/-- `count_filtered_time` of lib.rs. -/
def count_filtered_time (fm : List Fm) (filter : TimeFilter) (today : Date) : HabitCount :=
  count (filter_by_time fm filter today)

/-- Stable insertion of an entry into a date-sorted list: the new entry
goes before the first existing entry it compares less-or-equal to, hence
after all earlier-inserted entries with an equal date. -/
def insertFm (x : Fm) : List Fm → List Fm
  | [] => [x]
  | g :: gs => if dateLe x.date g.date then x :: g :: gs else g :: insertFm x gs

/-- The sort `front_matters.sort_by_key(|f| f.date)` of lib.rs: Rust's
stable sort by date. Embedded as insertion sort, which is stable and
sorts by the same key, so it computes the same list as any stable sort. -/
def sortByDate : List Fm → List Fm
  | [] => []
  | x :: xs => insertFm x (sortByDate xs)

/-- The pure aggregation core of `run` in lib.rs: sort the decoded
entries by date, then dispatch on the optional habit and time filters
exactly as the `match (filter, time)` in `run` (the absent-subcommand
branch behaves as (none, none)). -/
def run_tally (fm : List Fm) (habit : Option HabitFilter) (time : Option TimeFilter) (today : Date) : HabitCount :=
  let sorted := sortByDate fm
  match habit, time with
  | some hf, none => count_filtered_habit sorted hf
  | none, none => count sorted
  | none, some tf => count_filtered_time sorted tf today
  | some hf, some tf => count_filtered_habit (filter_by_time sorted tf today) hf

/-- The line loop of `parse_frontmatter` in lib.rs: each line equal to
`---` flips the `delim` flag, other lines are pushed while the flag is
set. -/
def collectFm : List String → Bool → List String
  | [], _ => []
  | l :: ls, delim =>
    if l = "---" then collectFm ls (!delim)
    else if delim then l :: collectFm ls delim
    else collectFm ls delim

/-- The per-file extraction step of `parse_frontmatter` in lib.rs: the
collected lines if any, else nothing. -/
def extract_frontmatter (lines : List String) : Option (List String) :=
  let fm := collectFm lines false
  if 0 < fm.length then some fm else none

/-- `parse_frontmatter` of lib.rs over already-read file contents: a file
is `none` when `read_to_string` failed, else its list of lines. The YAML
decoder is the `decode` parameter; each extracted block is joined with
newlines and decoded, failures dropped. -/
def parse_frontmatter (decode : String → Option Fm) (files : List (Option (List String))) : List Fm :=
  (files.filterMap (fun f => f.bind extract_frontmatter)).filterMap
    (fun fm => decode (String.intercalate "\n" fm))

/-- Model of a filesystem node for `find_files`: a regular file with a
name and optional extension, a readable directory with its entries, or a
directory whose `read_dir` fails. -/
inductive FsNode where
  | file (name : String) (ext : Option String)
  | dirOk (entries : List FsNode)
  | dirBad

/-- The entry loop of `find_files` in lib.rs: files with extension `md`
are pushed in iteration order, directories are recursed into, and an
unreadable directory's `read_dir()?` propagates the error, aborting the
walk. -/
def find_files_entries : List FsNode → Except Unit (List String)
  | [] => Except.ok []
  | FsNode.file name ext :: es =>
    match find_files_entries es with
    | Except.error e => Except.error e
    | Except.ok r => Except.ok ((if ext = some "md" then [name] else []) ++ r)
  | FsNode.dirOk sub :: es =>
    match find_files_entries sub with
    | Except.error e => Except.error e
    | Except.ok l =>
      match find_files_entries es with
      | Except.error e => Except.error e
      | Except.ok r => Except.ok (l ++ r)
  | FsNode.dirBad :: _ => Except.error ()

/-- `find_files` of lib.rs called on a root node: `read_dir` on the root
fails unless it is a readable directory. -/
def find_files : FsNode → Except Unit (List String)
  | FsNode.dirOk es => find_files_entries es
  | _ => Except.error ()

/-- Model of `read_dir`: the entries of a readable directory. -/
def read_dir : FsNode → Except Unit (List FsNode)
  | FsNode.dirOk es => Except.ok es
  | _ => Except.error ()

/-- Every directory in the list of nodes (recursively) is readable. -/
def allReadableList : List FsNode → Bool
  | [] => true
  | FsNode.file _ _ :: es => allReadableList es
  | FsNode.dirOk sub :: es => allReadableList sub && allReadableList es
  | FsNode.dirBad :: _ => false

/-- The names of all `.md` files under the nodes, depth-first in entry
order. -/
def mdFilesList : List FsNode → List String
  | [] => []
  | FsNode.file name ext :: es =>
    (if ext = some "md" then [name] else []) ++ mdFilesList es
  | FsNode.dirOk sub :: es => mdFilesList sub ++ mdFilesList es
  | FsNode.dirBad :: es => mdFilesList es

/-! Helper lemmas. -/

/-- The capped fold equals the uncapped fold of the first seven
entries. -/
theorem count_eq_tallyAll_take (fm : List Fm) : count fm = tallyAll (fm.take 7) :=
  rfl

/-- Each fold step raises each counter by at most one. -/
theorem add_counter_le (c : HabitCount) (h : Habit) :
    (c.add h).exercise ≤ c.exercise + 1 ∧ (c.add h).contrib ≤ c.contrib + 1 ∧
      (c.add h).reading ≤ c.reading + 1 := by
  simp only [HabitCount.add]
  refine ⟨?_, ?_, ?_⟩ <;> split <;> omega

/-- Folding a list raises each counter by at most the list length. -/
theorem tally_foldl_le (fm : List Fm) (c : HabitCount) :
    (fm.foldl (fun c f => c.add f.habits) c).exercise ≤ c.exercise + fm.length ∧
    (fm.foldl (fun c f => c.add f.habits) c).contrib ≤ c.contrib + fm.length ∧
    (fm.foldl (fun c f => c.add f.habits) c).reading ≤ c.reading + fm.length := by
  induction fm generalizing c with
  | nil => simp
  | cons f fs ih =>
    have hstep := add_counter_le c f.habits
    have htail := ih (c.add f.habits)
    simp only [List.foldl_cons, List.length_cons]
    refine ⟨?_, ?_, ?_⟩ <;> omega


/-- C2: the Month time filter retains exactly the entries whose calendar
month number equals today's month number, regardless of year. -/
theorem month_filter_ignores_year (fm : List Fm) (today : Date) (e : Fm) :
    e ∈ filter_by_time fm TimeFilter.month today ↔ e ∈ fm ∧ e.date.month = today.month := by
  simp [filter_by_time, tfPred, List.mem_filter]

/-- C4: the Week time filter retains an entry if and only if both its ISO
week number and its ISO week-year equal today's; matching the week number
alone is not enough. -/
theorem week_filter_requires_year_and_week (fm : List Fm) (today : Date) (e : Fm) :
    e ∈ filter_by_time fm TimeFilter.week today ↔
      e ∈ fm ∧ (isoWeek e.date).1 = (isoWeek today).1 ∧ (isoWeek e.date).2 = (isoWeek today).2 := by
  simp [filter_by_time, tfPred, List.mem_filter, Prod.ext_iff]

/-- C5: the tally folds only the first 7 entries in current order, and
when the list has 7 or fewer entries all of them contribute. -/
theorem count_caps_at_seven (fm : List Fm) :
    count fm = tallyAll (fm.take 7) ∧ (fm.length ≤ 7 → count fm = tallyAll fm) := by
  refine ⟨rfl, fun h => ?_⟩
  rw [count_eq_tallyAll_take, List.take_of_length_le h]

/-- Sample journal entries used by concrete witnesses. -/
def fmMar2019 : Fm :=
  { title := "spring", date := { year := 2019, month := 3, day := 1 },
    habits := { exercise := true, contrib := false, reading := true } }

def fmJan2024 : Fm :=
  { title := "newyear", date := { year := 2024, month := 1, day := 10 },
    habits := { exercise := true, contrib := true, reading := false } }

def fmJan2024b : Fm :=
  { title := "again", date := { year := 2024, month := 1, day := 10 },
    habits := { exercise := false, contrib := false, reading := true } }

/-- C5 witness: on a concrete 2-entry list the cap changes nothing. -/
theorem count_caps_at_seven_witness :
    count [fmMar2019, fmJan2024] = tallyAll [fmMar2019, fmJan2024] :=
  (count_caps_at_seven [fmMar2019, fmJan2024]).2 (by decide)

/-- C7: with both filters given, the result is the time filter applied to
the sorted list, then the habit filter, then the 7-entry cap and the
fold, in that order. -/
theorem combined_filters_time_then_habit (fm : List Fm) (hf : HabitFilter) (tf : TimeFilter) (today : Date) :
    run_tally fm (some hf) (some tf) today =
      tallyAll (List.take 7 (List.filter (habitPred hf) (filter_by_time (sortByDate fm) tf today))) :=
  rfl

/-- C8: folding one entry increments the counter of each true habit flag
by exactly 1 and leaves counters of false flags unchanged; folding n
entries leaves every counter at most n. -/
theorem add_increments_true_flags (hc : HabitCount) (h : Habit) (fm : List Fm) :
    (hc.add h).exercise = hc.exercise + (if h.exercise then 1 else 0) ∧
    (hc.add h).contrib = hc.contrib + (if h.contrib then 1 else 0) ∧
    (hc.add h).reading = hc.reading + (if h.reading then 1 else 0) ∧
    (tallyAll fm).exercise ≤ fm.length ∧
    (tallyAll fm).contrib ≤ fm.length ∧
    (tallyAll fm).reading ≤ fm.length := by
  have hb := tally_foldl_le fm HabitCount.default
  simp only [HabitCount.default] at hb
  refine ⟨?_, ?_, ?_, ?_, ?_, ?_⟩
  · simp only [HabitCount.add]; split <;> omega
  · simp only [HabitCount.add]; split <;> omega
  · simp only [HabitCount.add]; split <;> omega
  · exact le_trans hb.1 (by omega)
  · exact le_trans hb.2.1 (by omega)
  · exact le_trans hb.2.2 (by omega)

/-! Sorting lemmas. -/

/-- Date comparison is reflexive. -/
theorem dateLe_refl (a : Date) : dateLe a a = true := by
  simp [dateLe]

/-- Date comparison is total. -/
theorem dateLe_total (a b : Date) : dateLe a b = true ∨ dateLe b a = true := by
  simp only [dateLe, Bool.or_eq_true, Bool.and_eq_true, decide_eq_true_eq]
  omega

/-- Date comparison is transitive. -/
theorem dateLe_trans {a b c : Date} (h1 : dateLe a b = true) (h2 : dateLe b c = true) :
    dateLe a c = true := by
  simp only [dateLe, Bool.or_eq_true, Bool.and_eq_true, decide_eq_true_eq] at h1 h2 ⊢
  omega

/-- Membership in an insertion. -/
theorem mem_insertFm {y x : Fm} {l : List Fm} : y ∈ insertFm x l ↔ y = x ∨ y ∈ l := by
  induction l with
  | nil => simp [insertFm]
  | cons g gs ih =>
    rw [insertFm]
    split
    · simp
    · simp only [List.mem_cons, ih]
      tauto

/-- Inserting into a date-sorted list keeps it date-sorted. -/
theorem pairwise_insertFm {x : Fm} {l : List Fm}
    (h : List.Pairwise (fun a b => dateLe a.date b.date = true) l) :
    List.Pairwise (fun a b => dateLe a.date b.date = true) (insertFm x l) := by
  induction l with
  | nil => simp [insertFm]
  | cons g gs ih =>
    rw [insertFm]
    rcases List.pairwise_cons.mp h with ⟨hg, hgs⟩
    split
    · rename_i hle
      refine List.pairwise_cons.mpr ⟨?_, h⟩
      intro y hy
      rcases List.mem_cons.mp hy with rfl | hmem
      · exact hle
      · exact dateLe_trans hle (hg y hmem)
    · rename_i hnle
      have hgx : dateLe g.date x.date = true := by
        rcases dateLe_total x.date g.date with hc | hc
        · exact absurd hc hnle
        · exact hc
      refine List.pairwise_cons.mpr ⟨?_, ih hgs⟩
      intro y hy
      rcases mem_insertFm.mp hy with rfl | hmem
      · exact hgx
      · exact hg y hmem

/-- Insertion produces a permutation of consing. -/
theorem perm_insertFm (x : Fm) (l : List Fm) : List.Perm (insertFm x l) (x :: l) := by
  induction l with
  | nil => simp [insertFm]
  | cons g gs ih =>
    rw [insertFm]
    split
    · exact List.Perm.refl _
    · exact ((ih.cons g).trans (List.Perm.swap x g gs))

/-- Entries that are strictly earlier by date are never equal in date. -/
theorem date_ne_of_not_le {x g : Fm} (hnle : ¬ dateLe x.date g.date = true) :
    g.date ≠ x.date := by
  intro he
  exact hnle (he ▸ dateLe_refl g.date)

/-- Stability of insertion: the entries at any fixed date are the
inserted entry first (when it has that date) followed by the existing
ones in their original order. -/
theorem filter_insertFm (d : Date) (x : Fm) (l : List Fm) :
    (insertFm x l).filter (fun f => decide (f.date = d)) =
      if x.date = d then x :: l.filter (fun f => decide (f.date = d))
      else l.filter (fun f => decide (f.date = d)) := by
  induction l with
  | nil =>
    rw [insertFm]
    split <;> simp_all [List.filter]
  | cons g gs ih =>
    rw [insertFm]
    split
    · rename_i hle
      by_cases hx : x.date = d <;> simp [List.filter_cons, hx]
    · rename_i hnle
      by_cases hx : x.date = d
      · have hg : g.date ≠ d := by
          intro hgd
          exact date_ne_of_not_le hnle (hgd.trans hx.symm)
        simp [List.filter_cons, hx, hg, ih]
      · by_cases hg : g.date = d <;> simp [List.filter_cons, hx, hg, ih]

/-- C9: the decoded entry list is sorted ascending by date before any
filtering, the sorted list is a permutation of the input, and the sort is
stable: entries with any fixed date keep their original relative order. -/
theorem sort_ascending_stable (fm : List Fm) :
    List.Pairwise (fun a b => dateLe a.date b.date = true) (sortByDate fm) ∧
    List.Perm (sortByDate fm) fm ∧
    (∀ d : Date, (sortByDate fm).filter (fun f => decide (f.date = d)) =
      fm.filter (fun f => decide (f.date = d))) := by
  induction fm with
  | nil => exact ⟨List.Pairwise.nil, List.Perm.refl _, fun _ => rfl⟩
  | cons x xs ih =>
    rcases ih with ⟨hpw, hperm, hstable⟩
    refine ⟨pairwise_insertFm hpw, ?_, ?_⟩
    · exact (perm_insertFm x (sortByDate xs)).trans (hperm.cons x)
    · intro d
      rw [sortByDate, filter_insertFm d x (sortByDate xs), List.filter_cons]
      by_cases hx : x.date = d <;> simp [hx, hstable d]

/-! Extraction lemmas. -/

/-- Spec-side restatement of the toggle scan as a single left fold
carrying the pair (collected lines, inside-block flag). -/
def toggleSpecStep (acc : List String × Bool) (l : String) : List String × Bool :=
  if l = "---" then (acc.1, !acc.2) else if acc.2 then (acc.1 ++ [l], acc.2) else acc

/-- The fold restatement collects exactly the lines of the source loop. -/
theorem foldl_toggleSpecStep (lines : List String) (acc : List String) (d : Bool) :
    (lines.foldl toggleSpecStep (acc, d)).1 = acc ++ collectFm lines d := by
  induction lines generalizing acc d with
  | nil => simp [collectFm]
  | cons l ls ih =>
    rw [List.foldl_cons, collectFm, toggleSpecStep]
    by_cases hm : l = "---"
    · simp only [hm, if_pos rfl]
      simp [ih]
    · cases d with
      | false => simp [hm, ih]
      | true => simp [hm, ih]

/-- Lines without a marker contribute nothing while the flag is off. -/
theorem collectFm_no_marker_false {lines : List String} (h : "---" ∉ lines) :
    collectFm lines false = [] := by
  induction lines with
  | nil => rfl
  | cons l ls ih =>
    rw [collectFm]
    have hl : l ≠ "---" := fun he => h (he ▸ List.mem_cons_self l ls)
    simp only [if_neg hl, if_neg (Bool.false_ne_true)]
    exact ih (fun hm => h (List.mem_cons_of_mem l hm))

/-- Lines without a marker are all collected while the flag is on. -/
theorem collectFm_no_marker_true {lines : List String} (h : "---" ∉ lines) :
    collectFm lines true = lines := by
  induction lines with
  | nil => rfl
  | cons l ls ih =>
    rw [collectFm]
    have hl : l ≠ "---" := fun he => h (he ▸ List.mem_cons_self l ls)
    simp [hl, ih (fun hm => h (List.mem_cons_of_mem l hm))]

/-- A marker-free prefix is skipped by the scan. -/
theorem collectFm_append_no_marker {pre : List String} (rest : List String)
    (h : "---" ∉ pre) : collectFm (pre ++ rest) false = collectFm rest false := by
  induction pre with
  | nil => rfl
  | cons l ls ih =>
    rw [List.cons_append, collectFm]
    have hl : l ≠ "---" := fun he => h (he ▸ List.mem_cons_self l ls)
    simp only [if_neg hl, if_neg (Bool.false_ne_true)]
    exact ih (fun hm => h (List.mem_cons_of_mem l hm))

/-- C6: scanning the lines in order, each `---` flips the inside-block
flag, non-marker lines are collected exactly while the flag is on, an
empty collection yields no block, and the collected block joined with
newlines is what reaches the decoder. -/
theorem extraction_toggle_fold (lines : List String) :
    (extract_frontmatter lines =
      if (lines.foldl toggleSpecStep ([], false)).1 = [] then none
      else some (lines.foldl toggleSpecStep ([], false)).1) ∧
    (∀ decode : String → Option Fm,
      parse_frontmatter decode [some lines] =
        Option.toList ((extract_frontmatter lines).bind
          (fun fm => decode (String.intercalate "\n" fm)))) := by
  constructor
  · rw [extract_frontmatter]
    rw [foldl_toggleSpecStep lines [] false]
    cases h : collectFm lines false with
    | nil => simp
    | cons a as => simp
  · intro decode
    rw [parse_frontmatter]
    cases hE : extract_frontmatter lines with
    | none => simp [List.filterMap, hE]
    | some fm =>
      cases hD : decode (String.intercalate "\n" fm) with
      | none => simp [List.filterMap, hE, hD]
      | some e => simp [List.filterMap, hE, hD]

/-- C1 counterexample: a file whose `---` is never closed does produce a
block, namely all lines after the opening marker, contradicting the
claim that it contributes nothing. -/
theorem unclosed_marker_yields_block :
    extract_frontmatter ["---", "title: x"] = some ["title: x"] := by
  decide

/-- C1 amended: a file with zero `---` lines yields no block, while a
file whose single opening `---` has no subsequent closing `---` yields
the block of all lines after the opening marker whenever that suffix is
nonempty. -/
theorem extract_no_marker_none_unclosed_suffix (pre rest : List String) (lines : List String)
    (hlines : "---" ∉ lines) (hpre : "---" ∉ pre) (hrest : "---" ∉ rest) (hne : rest ≠ []) :
    extract_frontmatter lines = none ∧
    extract_frontmatter (pre ++ "---" :: rest) = some rest := by
  constructor
  · rw [extract_frontmatter]
    simp [collectFm_no_marker_false hlines]
  · rw [extract_frontmatter]
    rw [collectFm_append_no_marker ("---" :: rest) hpre]
    rw [collectFm]
    simp only [if_pos rfl, Bool.not_false]
    rw [collectFm_no_marker_true hrest]
    cases rest with
    | nil => exact absurd rfl hne
    | cons a as => simp

/-- C1 amended witness: concrete no-marker and unclosed-marker files. -/
theorem extract_no_marker_none_unclosed_suffix_witness :
    extract_frontmatter ["just text"] = none ∧
    extract_frontmatter (["intro"] ++ "---" :: ["title: x", "date: 2024-01-10"]) =
      some ["title: x", "date: 2024-01-10"] :=
  extract_no_marker_none_unclosed_suffix ["intro"] ["title: x", "date: 2024-01-10"]
    ["just text"] (by decide) (by decide) (by decide) (by decide)

/-! Directory walk lemmas. -/

/-- The entry loop succeeds exactly when every directory below it is
readable, and then returns all `.md` files in depth-first order. -/
theorem find_files_entries_eq_aux (n : Nat) : ∀ es : List FsNode, sizeOf es ≤ n →
    find_files_entries es =
      if allReadableList es = true then Except.ok (mdFilesList es) else Except.error () := by
  induction n with
  | zero =>
    intro es h
    cases es with
    | nil => simp [find_files_entries, allReadableList, mdFilesList]
    | cons e es' => simp only [List.cons.sizeOf_spec] at h; omega
  | succ n ih =>
    intro es h
    match es with
    | [] => simp [find_files_entries, allReadableList, mdFilesList]
    | FsNode.file name ext :: es' =>
      have hs : sizeOf es' ≤ n := by
        simp only [List.cons.sizeOf_spec] at h; omega
      rw [show find_files_entries (FsNode.file name ext :: es') =
        (match find_files_entries es' with
         | Except.error e => Except.error e
         | Except.ok r => Except.ok ((if ext = some "md" then [name] else []) ++ r)) from by
          simp [find_files_entries]]
      rw [ih es' hs]
      by_cases hr : allReadableList es' = true <;>
        simp [allReadableList, mdFilesList, hr]
    | FsNode.dirOk sub :: es' =>
      have h1 : sizeOf sub ≤ n := by
        simp only [List.cons.sizeOf_spec, FsNode.dirOk.sizeOf_spec] at h; omega
      have h2 : sizeOf es' ≤ n := by
        simp only [List.cons.sizeOf_spec, FsNode.dirOk.sizeOf_spec] at h; omega
      rw [show find_files_entries (FsNode.dirOk sub :: es') =
        (match find_files_entries sub with
         | Except.error e => Except.error e
         | Except.ok l =>
           match find_files_entries es' with
           | Except.error e => Except.error e
           | Except.ok r => Except.ok (l ++ r)) from by
          simp [find_files_entries]]
      rw [ih sub h1, ih es' h2]
      by_cases hs : allReadableList sub = true <;>
        by_cases hr : allReadableList es' = true <;>
          simp [allReadableList, mdFilesList, hs, hr]
    | FsNode.dirBad :: es' =>
      simp [find_files_entries, allReadableList]

/-- Closed form of the entry loop. -/
theorem find_files_entries_eq (es : List FsNode) :
    find_files_entries es =
      if allReadableList es = true then Except.ok (mdFilesList es) else Except.error () :=
  find_files_entries_eq_aux (sizeOf es) es (Nat.le_refl _)

/-- C3 counterexample: the root directory is readable (its `read_dir`
succeeds), yet an unreadable subdirectory aborts the whole walk with an
error instead of a best-effort result. -/
theorem bad_subdir_aborts_walk :
    read_dir (FsNode.dirOk [FsNode.dirBad]) = Except.ok [FsNode.dirBad] ∧
    find_files (FsNode.dirOk [FsNode.dirBad]) = Except.error () := by
  refine ⟨rfl, ?_⟩
  rw [show find_files (FsNode.dirOk [FsNode.dirBad]) = find_files_entries [FsNode.dirBad]
    from rfl]
  simp [find_files_entries]

/-- C3 amended: a read failure on any directory of the tree, root or
nested, aborts the whole walk with an I/O error; the walk succeeds
exactly when every directory in the tree is readable, and then returns
all `.md` files in depth-first order. -/
theorem find_files_ok_iff_all_readable :
    (∀ es : List FsNode, allReadableList es = true →
      find_files (FsNode.dirOk es) = Except.ok (mdFilesList es)) ∧
    (∀ es : List FsNode, allReadableList es = false →
      find_files (FsNode.dirOk es) = Except.error ()) ∧
    find_files FsNode.dirBad = Except.error () := by
  refine ⟨fun es h => ?_, fun es h => ?_, rfl⟩
  · rw [show find_files (FsNode.dirOk es) = find_files_entries es from rfl]
    rw [find_files_entries_eq, if_pos h]
  · rw [show find_files (FsNode.dirOk es) = find_files_entries es from rfl]
    rw [find_files_entries_eq, if_neg ?_]
    rw [h]
    exact Bool.false_ne_true

/-- C3 amended witness: a fully readable tree yields its `.md` files; a
tree with one unreadable nested directory yields an error. -/
theorem find_files_ok_iff_all_readable_witness :
    find_files (FsNode.dirOk [FsNode.file "a.md" (some "md"),
      FsNode.dirOk [FsNode.file "b.md" (some "md"), FsNode.file "c.txt" (some "txt")]]) =
      Except.ok ["a.md", "b.md"] ∧
    find_files (FsNode.dirOk [FsNode.file "a.md" (some "md"),
      FsNode.dirOk [FsNode.dirBad]]) = Except.error () := by
  constructor
  · rw [find_files_ok_iff_all_readable.1 _ (by simp [allReadableList])]
    simp [mdFilesList]
  · exact find_files_ok_iff_all_readable.2.1 _ (by simp [allReadableList])

/-! Title non-interference lemmas. -/

/-- Two entries that agree except possibly in their titles. -/
def sameButTitle (a b : Fm) : Prop := a.date = b.date ∧ a.habits = b.habits

/-- Filtering by a title-blind predicate preserves the relation. -/
theorem forall2_filter_congr {l₁ l₂ : List Fm} (p : Fm → Bool)
    (hp : ∀ a b, sameButTitle a b → p a = p b)
    (h : List.Forall₂ sameButTitle l₁ l₂) :
    List.Forall₂ sameButTitle (l₁.filter p) (l₂.filter p) := by
  induction h with
  | nil => exact List.Forall₂.nil
  | cons hab htail ih =>
    rename_i a b as bs
    rw [List.filter_cons, List.filter_cons]
    cases hpb : p b with
    | false => simpa [hp a b hab, hpb] using ih
    | true =>
      rw [hp a b hab, hpb]
      exact List.Forall₂.cons hab ih

/-- The tally fold never reads titles. -/
theorem foldl_tally_congr {l₁ l₂ : List Fm} (h : List.Forall₂ sameButTitle l₁ l₂) :
    ∀ c : HabitCount,
      l₁.foldl (fun c f => c.add f.habits) c = l₂.foldl (fun c f => c.add f.habits) c := by
  induction h with
  | nil => intro c; rfl
  | cons hab htail ih =>
    intro c
    simp only [List.foldl_cons]
    rw [hab.2]
    exact ih _

/-- The capped tally never reads titles. -/
theorem count_congr {l₁ l₂ : List Fm} (h : List.Forall₂ sameButTitle l₁ l₂) :
    count l₁ = count l₂ :=
  foldl_tally_congr (List.forall₂_take 7 h) HabitCount.default

/-- The habit predicate is title-blind. -/
theorem habitPred_congr (hf : HabitFilter) (a b : Fm) (h : sameButTitle a b) :
    habitPred hf a = habitPred hf b := by
  cases hf <;> simp [habitPred, h.2]

/-- The time predicate is title-blind. -/
theorem tfPred_congr (tf : TimeFilter) (today : Date) (a b : Fm) (h : sameButTitle a b) :
    tfPred today tf a.date = tfPred today tf b.date := by
  rw [h.1]

/-- Stable insertion is title-blind. -/
theorem insertFm_congr {x y : Fm} {l₁ l₂ : List Fm} (hxy : sameButTitle x y)
    (h : List.Forall₂ sameButTitle l₁ l₂) :
    List.Forall₂ sameButTitle (insertFm x l₁) (insertFm y l₂) := by
  induction h with
  | nil => exact List.Forall₂.cons hxy List.Forall₂.nil
  | cons hab htail ih =>
    rename_i a b as bs
    rw [insertFm, insertFm]
    rw [show dateLe x.date a.date = dateLe y.date b.date from by rw [hxy.1, hab.1]]
    cases hc : dateLe y.date b.date with
    | true =>
      rw [if_pos rfl]
      exact List.Forall₂.cons hxy (List.Forall₂.cons hab htail)
    | false =>
      rw [if_neg Bool.false_ne_true]
      exact List.Forall₂.cons hab ih

/-- The whole sort is title-blind. -/
theorem sortByDate_congr {l₁ l₂ : List Fm} (h : List.Forall₂ sameButTitle l₁ l₂) :
    List.Forall₂ sameButTitle (sortByDate l₁) (sortByDate l₂) := by
  induction h with
  | nil => exact List.Forall₂.nil
  | cons hab htail ih =>
    rw [sortByDate, sortByDate]
    exact insertFm_congr hab ih

/-- C10: the `title` field never influences the reported counts: lists
equal except in titles give identical tallies through `count`,
`count_filtered_habit`, `count_filtered_time` and the combined
time-then-habit path of `run`. -/
theorem title_noninterference (l₁ l₂ : List Fm) (h : List.Forall₂ sameButTitle l₁ l₂) :
    count l₁ = count l₂ ∧
    (∀ hf, count_filtered_habit l₁ hf = count_filtered_habit l₂ hf) ∧
    (∀ tf today, count_filtered_time l₁ tf today = count_filtered_time l₂ tf today) ∧
    (∀ hf tf today,
      run_tally l₁ (some hf) (some tf) today = run_tally l₂ (some hf) (some tf) today) := by
  refine ⟨count_congr h, fun hf => ?_, fun tf today => ?_, fun hf tf today => ?_⟩
  · exact count_congr (forall2_filter_congr (habitPred hf) (habitPred_congr hf) h)
  · exact count_congr (forall2_filter_congr (fun f => tfPred today tf f.date)
      (tfPred_congr tf today) h)
  · exact count_congr (forall2_filter_congr (habitPred hf) (habitPred_congr hf)
      (forall2_filter_congr (fun f => tfPred today tf f.date) (tfPred_congr tf today)
        (sortByDate_congr h)))

/-- C10 witness: renaming a concrete entry's title leaves the count
unchanged. -/
theorem title_noninterference_witness :
    count [fmJan2024] = count [{ fmJan2024 with title := "renamed" }] :=
  (title_noninterference [fmJan2024] [{ fmJan2024 with title := "renamed" }]
    (List.Forall₂.cons ⟨rfl, rfl⟩ List.Forall₂.nil)).1
